import Mathlib

/-!
Verification of the rustbx brain-extraction core.

We shallowly embed the numerical pipeline of the repository:
`src/postprocess.rs` (sigmoid, threshold_mask, largest_connected_component_3d),
`src/bx.rs` (run_bx) and the batch loop of `src/main.rs`.

Volumes (`ndarray::ArrayD` restricted to 3 dimensions) are modelled as a shape
triple together with a total valuation function on coordinates; `u8`/`u32`
cell values are modelled as `ℕ` (the `u32` component-label counter can only
overflow on volumes of at least 2^32 voxels, which we do not model), and
`f32` intensities are modelled as `ℚ`.  The transcendental scalar sigmoid
`1/(1+exp(-x))` is not exactly representable over `ℚ`; the pipeline is
therefore parametrised by the scalar activation function wherever it is
needed, and every theorem about `run_bx` holds for an arbitrary activation.
-/

namespace Rustbx

/-- A voxel coordinate `(x, y, z)`. -/
abbrev Coord := ℕ × ℕ × ℕ

/-- A dense 3-dimensional volume: a shape `(nx, ny, nz)` together with a
total valuation function (values outside the bounds are irrelevant). -/
structure Vol3 (α : Type) where
  nx : ℕ
  ny : ℕ
  nz : ℕ
  val : Coord → α

/-- Coordinate `p` lies inside the bounds of volume `m`. -/
def inB {α : Type} (m : Vol3 α) (p : Coord) : Prop :=
  p.1 < m.nx ∧ p.2.1 < m.ny ∧ p.2.2 < m.nz

instance {α : Type} (m : Vol3 α) (p : Coord) : Decidable (inB m p) := by
  unfold inB; infer_instance

/-- The voxels of a volume in row-major scan order: `x` outermost, `z`
innermost, exactly the nesting of the three `for` loops in
`largest_connected_component_3d` and of `ndarray` iteration order. -/
def scanCoords {α : Type} (m : Vol3 α) : List Coord :=
  (List.range m.nx).flatMap fun x =>
    (List.range m.ny).flatMap fun y =>
      (List.range m.nz).map fun z => (x, y, z)

/-- Number of voxels of a volume. -/
def volSize {α : Type} (m : Vol3 α) : ℕ := m.nx * m.ny * m.nz

/-- The six axis-aligned neighbour offsets used by the component labeler
(`offsets` in `postprocess.rs`). -/
def offsets : List (ℤ × ℤ × ℤ) :=
  [(-1, 0, 0), (1, 0, 0), (0, -1, 0), (0, 1, 0), (0, 0, -1), (0, 0, 1)]

/-- In-bounds 6-neighbours of a coordinate, computed the way the Rust code
does: signed offset arithmetic, a bounds check, then a cast back to an
unsigned coordinate. -/
def neighborsOf {α : Type} (m : Vol3 α) (c : Coord) : List Coord :=
  offsets.filterMap fun d =>
    let x2 : ℤ := (c.1 : ℤ) + d.1
    let y2 : ℤ := (c.2.1 : ℤ) + d.2.1
    let z2 : ℤ := (c.2.2 : ℤ) + d.2.2
    if 0 ≤ x2 ∧ x2 < (m.nx : ℤ) ∧ 0 ≤ y2 ∧ y2 < (m.ny : ℤ) ∧ 0 ≤ z2 ∧ z2 < (m.nz : ℤ) then
      some (x2.toNat, y2.toNat, z2.toNat)
    else none

/-- Pointwise update of a label valuation at one coordinate. -/
def upd (L : Coord → ℕ) (c : Coord) (l : ℕ) : Coord → ℕ :=
  fun q => if q = c then l else L q

/-- Treatment of one neighbour inside the BFS inner loop: a foreground,
unlabelled neighbour is labelled `l` and appended to the list of newly
enqueued voxels (`postprocess.rs` lines 58-61). -/
def visitStep (m : Vol3 ℕ) (l : ℕ) (acc : (Coord → ℕ) × List Coord) (q : Coord) :
    (Coord → ℕ) × List Coord :=
  if 0 < m.val q ∧ acc.1 q = 0 then (upd acc.1 q l, acc.2 ++ [q]) else acc

/-- One BFS dequeue step's inner loop: visit the given neighbour list of the
popped voxel (`postprocess.rs` lines 47-62). -/
def visitNbrs (m : Vol3 ℕ) (l : ℕ) (L : Coord → ℕ) (ns : List Coord) :
    (Coord → ℕ) × List Coord :=
  ns.foldl (visitStep m l) (L, [])

/-- The BFS `while let Some(..) = queue.pop_front()` loop of
`largest_connected_component_3d`, with explicit fuel.  Each iteration pops the
queue head, counts it into the component size, and enqueues its foreground
unlabelled neighbours.  The loop in the Rust code terminates because each
iteration either shrinks the queue or labels a fresh voxel; `bfs_run` below
shows that `volSize m + 1` fuel always suffices. -/
def bfsLoop (m : Vol3 ℕ) (l : ℕ) : ℕ → (Coord → ℕ) → List Coord → ℕ → (Coord → ℕ) × ℕ
  | 0, L, _, sz => (L, sz)
  | _ + 1, L, [], sz => (L, sz)
  | fuel + 1, L, c :: rest, sz =>
    let st := visitNbrs m l L (neighborsOf m c)
    bfsLoop m l fuel st.1 (rest ++ st.2) (sz + 1)

/-- State of the outer scan of `largest_connected_component_3d`: the label
volume, the monotone label counter, and the best label and size so far. -/
structure LccSt where
  labels : Coord → ℕ
  cur : ℕ
  bestL : ℕ
  bestS : ℕ

/-- Processing of one scan-order voxel by the outer loop of
`largest_connected_component_3d`: skip background or already labelled voxels;
otherwise allocate a fresh label, flood-fill the component by BFS, and update
the best label on strict size improvement (lines 32-71 of `postprocess.rs`). -/
def lccStep (m : Vol3 ℕ) (s : LccSt) (c : Coord) : LccSt :=
  if m.val c = 0 ∨ 0 < s.labels c then s
  else
    let l := s.cur + 1
    let r := bfsLoop m l (volSize m + 1) (upd s.labels c l) [c] 0
    { labels := r.1
      cur := l
      bestL := if r.2 > s.bestS then l else s.bestL
      bestS := if r.2 > s.bestS then r.2 else s.bestS }

/-- Initial labeler state: all labels `0`, counter `0`, best label `0` (the
unset sentinel), best size `0`. -/
def lccInit : LccSt := ⟨fun _ => 0, 0, 0, 0⟩

/-- The whole outer scan of `largest_connected_component_3d`. -/
def runLcc (m : Vol3 ℕ) : LccSt := (scanCoords m).foldl (lccStep m) lccInit

/-- Embedding of `largest_connected_component_3d` (`postprocess.rs` 15-75):
label all 6-connected components of the positive voxels, then map every voxel
to `1` iff its label equals the best label, else `0`. -/
def largest_connected_component_3d (m : Vol3 ℕ) : Vol3 ℕ :=
  ⟨m.nx, m.ny, m.nz, fun p => if (runLcc m).labels p = (runLcc m).bestL then 1 else 0⟩

/-- Embedding of `threshold_mask` (`postprocess.rs` 10-12): voxel is `1` iff
its probability is `≥ th` (inclusive comparison), else `0`. -/
def threshold_mask (prob : Vol3 ℚ) (th : ℚ) : Vol3 ℕ :=
  ⟨prob.nx, prob.ny, prob.nz, fun p => if th ≤ prob.val p then 1 else 0⟩

/-- The values of a volume, listed in iteration (row-major scan) order. -/
def vals (v : Vol3 ℚ) : List ℚ := (scanCoords v).map v.val

/-- Embedding of `data.iter().cloned().fold(f32::NEG_INFINITY, f32::max)`
(`bx.rs` line 21).  Over `ℚ` there is no `-∞`, so the accumulator is an
`Option`, `none` playing the role of the initial `-∞` (and `max (-∞) x = x`). -/
def maxVal (l : List ℚ) : Option ℚ :=
  l.foldl (fun a x => match a with | none => some x | some b => some (max b x)) none

/-- Embedding of the normalization step of `run_bx` (`bx.rs` lines 21-26):
divide every voxel by the maximum if it is positive, otherwise return a copy
of the input.  An empty volume folds to `none` (the fold would stay at `-∞`,
which is not `> 0`), so it also takes the copy branch. -/
def normalizeVol (v : Vol3 ℚ) : Vol3 ℚ :=
  match maxVal (vals v) with
  | some m => if 0 < m then ⟨v.nx, v.ny, v.nz, fun p => v.val p / m⟩ else v
  | none => v

/-- An n-dimensional array as returned by the inference adapter
(`inference::run_onnx`): a dynamic shape plus row-major data. -/
structure NdVol where
  shape : List ℕ
  data : List ℚ

/-- Observable outcome of a `run_bx` call: a returned value, a returned
`Err` (an `anyhow` error propagated with `?`), or a Rust panic (out-of-bounds
index, failed `assert!`, or an `ndarray::Zip` shape mismatch). -/
inductive RunRes (α : Type) where
  | ok : α → RunRes α
  | err : RunRes α
  | panicked : RunRes α
deriving DecidableEq

/-- Reinterpret a row-major data list as a 3D volume of the given shape,
as `into_shape_with_order` does once the element count matches. -/
def flatten3 (a b c : ℕ) (d : List ℚ) : Vol3 ℚ :=
  ⟨a, b, c, fun p => d.getD ((p.1 * b + p.2.1) * c + p.2.2) 0⟩

/-- Embedding of `run_bx` (`bx.rs` 16-63).  The external inference adapter is
a parameter `infer` (called on the normalized volume; `Except.error` models a
failed `run_onnx`), and the scalar sigmoid is a parameter `sig` (its `f32`
value `1/(1+exp(-x))` is transcendental, and no theorem below depends on it).
The steps mirror the source: normalize; infer; read `shape[2]`, `shape[3]`,
`shape[4]` of the output (a Rust index panic if the output has fewer than 5
dimensions); `into_shape_with_order` to those three dimensions (an `Err` if
the element count differs); sigmoid; threshold at `0.5`; largest connected
component; and `Zip` of the original input with the mask (a panic if the
shapes disagree).  `maskFrom` names steps 3-5 of `run_bx` (sigmoid, threshold
at `0.5`, largest connected component) applied to the reshaped logits. -/
def maskFrom (sig : ℚ → ℚ) (a b c : ℕ) (d : List ℚ) : Vol3 ℕ :=
  largest_connected_component_3d
    (threshold_mask ⟨a, b, c, fun p => sig ((flatten3 a b c d).val p)⟩ (1 / 2))

/-- The orchestrator `run_bx` itself, sequencing the stages described above. -/
def run_bx (sig : ℚ → ℚ) (data : Vol3 ℚ) (infer : Vol3 ℚ → Except Unit NdVol) :
    RunRes (Vol3 ℕ × Vol3 ℚ) :=
  match infer (normalizeVol data) with
  | .error _ => .err
  | .ok out =>
    match out.shape.get? 2, out.shape.get? 3, out.shape.get? 4 with
    | some a, some b, some c =>
      if out.data.length = a * b * c then
        if (maskFrom sig a b c out.data).nx = data.nx ∧
            (maskFrom sig a b c out.data).ny = data.ny ∧
            (maskFrom sig a b c out.data).nz = data.nz then
          .ok (maskFrom sig a b c out.data,
            ⟨data.nx, data.ny, data.nz,
              fun p => if 0 < (maskFrom sig a b c out.data).val p then data.val p else 0⟩)
        else .panicked
      else .err
    | _, _, _ => .panicked

/-- Observable events of the batch loop in `main` (`main.rs` 74-80): the
`[i/n] path` progress line printed before processing a file, and the
`ERROR: e` line printed when processing that file failed. -/
inductive BatchEv (P E : Type) where
  | announce : ℕ → ℕ → P → BatchEv P E
  | reportErr : E → BatchEv P E
deriving DecidableEq

/-- Embedding of the `for (i, input) in files.iter().enumerate()` loop of
`main`: each file is announced, then processed; a failure is reported and the
loop moves on to the next file.  `proc` abstracts `process_file`. -/
def processBatch {P E : Type} (proc : P → Except E Unit) (n : ℕ) :
    List P → ℕ → List (BatchEv P E)
  | [], _ => []
  | f :: rest, i =>
    (BatchEv.announce (i + 1) n f ::
      (match proc f with | .ok _ => [] | .error e => [BatchEv.reportErr e])) ++
    processBatch proc n rest (i + 1)

/-- The batch loop run over a full file list. -/
def runBatch {P E : Type} (proc : P → Except E Unit) (files : List P) :
    List (BatchEv P E) :=
  processBatch proc files.length files 0

/-! ## Specification-side notions

Six-connectivity, foreground voxels, reachability and connected components,
stated independently of the labeling algorithm, following the glossary of the
specification. -/

/-- Two coordinates are 6-adjacent: they differ by exactly one along exactly
one of the three axes. -/
def sixAdj (p q : Coord) : Prop :=
  (p.2.1 = q.2.1 ∧ p.2.2 = q.2.2 ∧ (p.1 + 1 = q.1 ∨ q.1 + 1 = p.1)) ∨
  (p.1 = q.1 ∧ p.2.2 = q.2.2 ∧ (p.2.1 + 1 = q.2.1 ∨ q.2.1 + 1 = p.2.1)) ∨
  (p.1 = q.1 ∧ p.2.1 = q.2.1 ∧ (p.2.2 + 1 = q.2.2 ∨ q.2.2 + 1 = p.2.2))

instance (p q : Coord) : Decidable (sixAdj p q) := by
  unfold sixAdj; infer_instance

/-- A foreground voxel of a mask: in bounds with a positive value. -/
def fg (m : Vol3 ℕ) (p : Coord) : Prop := inB m p ∧ m.val p ≠ 0

instance (m : Vol3 ℕ) (p : Coord) : Decidable (fg m p) := by
  unfold fg; infer_instance

/-- The foreground adjacency relation of a mask: both endpoints are
foreground voxels and they are 6-adjacent. -/
def adjFg (m : Vol3 ℕ) (p q : Coord) : Prop := fg m p ∧ fg m q ∧ sixAdj p q

/-- 6-connected reachability between voxels of a mask: the reflexive
transitive closure of foreground adjacency. -/
def reach (m : Vol3 ℕ) (p q : Coord) : Prop := Relation.ReflTransGen (adjFg m) p q

/-- The connected component of a voxel, as a set of coordinates. -/
def compSet (m : Vol3 ℕ) (p : Coord) : Set Coord := {q | reach m p q}

/-- The strict lexicographic scan order on coordinates (`x` major, then `y`,
then `z`), i.e. the order in which the outer loop of the labeler visits
voxels. -/
def scanLt (p q : Coord) : Prop :=
  p.1 < q.1 ∨ (p.1 = q.1 ∧ (p.2.1 < q.2.1 ∨ (p.2.1 = q.2.1 ∧ p.2.2 < q.2.2)))

/-- The finite set of in-bounds coordinates of a volume. -/
def allCoords {α : Type} (m : Vol3 α) : Finset Coord :=
  Finset.range m.nx ×ˢ Finset.range m.ny ×ˢ Finset.range m.nz

/-- The in-bounds voxels carrying label `l` under the labelling `L`. -/
def labelSet (m : Vol3 ℕ) (L : Coord → ℕ) (l : ℕ) : Finset Coord :=
  (allCoords m).filter (fun q => L q = l)

/-- The in-bounds foreground voxels still unlabelled under `L`. -/
def unlabSet (m : Vol3 ℕ) (L : Coord → ℕ) : Finset Coord :=
  (allCoords m).filter (fun q => 0 < m.val q ∧ L q = 0)

/-- Invariant of the BFS loop that flood-fills the component of the seed
`c0` with the fresh label `l` on top of the pre-existing labelling `Lp`:
labels other than `l` are untouched; every voxel labelled `l` is reachable
from the seed and was unlabelled before; every labelled-`l` voxel no longer
in the queue has all its foreground neighbours labelled; queued voxels are
distinct and labelled `l`; and the pop counter plus the queue length equals
the number of voxels labelled `l`. -/
structure BI (m : Vol3 ℕ) (c0 : Coord) (l : ℕ) (Lp L : Coord → ℕ)
    (Q : List Coord) (sz : ℕ) : Prop where
  old : ∀ q, L q ≠ l → L q = Lp q
  mem : ∀ q, L q = l → reach m c0 q
  front : ∀ q q', L q = l → q ∉ Q → adjFg m q q' → L q' ≠ 0
  qlab : ∀ q ∈ Q, L q = l
  nodupQ : Q.Nodup
  count : sz + Q.length = (labelSet m L l).card
  seed : L c0 = l

/-- Invariant of the outer scan of the component labeler, after the voxels
of `pr` have been processed: labels mark foreground voxels, are bounded by
the counter, and partition voxels exactly into connectivity classes; every
processed foreground voxel is labelled; every used label has a scan-minimal
seed voxel that scan-precedes every voxel of every later component; and the
best label and size track a largest component, the best label being the
least label attaining the best size. -/
structure OI (m : Vol3 ℕ) (pr : List Coord) (s : LccSt) : Prop where
  fgL : ∀ q, s.labels q ≠ 0 → fg m q
  le_cur : ∀ q, s.labels q ≤ s.cur
  compl : ∀ q q', s.labels q ≠ 0 → (s.labels q' = s.labels q ↔ reach m q q')
  procLab : ∀ p ∈ pr, m.val p ≠ 0 → s.labels p ≠ 0
  seeds : ∀ l, 1 ≤ l → l ≤ s.cur →
    ∃ c, s.labels c = l ∧ c ∈ pr ∧
      (∀ q, s.labels q = l → q = c ∨ scanLt c q) ∧
      (∀ q l2, s.labels q = l2 → l < l2 → scanLt c q)
  cur0 : s.cur = 0 → s.bestL = 0 ∧ s.bestS = 0 ∧ ∀ q, s.labels q = 0
  bestL_pos : 1 ≤ s.cur → 1 ≤ s.bestL ∧ s.bestL ≤ s.cur
  bestS_eq : 1 ≤ s.cur → s.bestS = (labelSet m s.labels s.bestL).card
  bestS_max : ∀ l, 1 ≤ l → l ≤ s.cur → (labelSet m s.labels l).card ≤ s.bestS
  bestS_strict : ∀ l, 1 ≤ l → l < s.bestL → (labelSet m s.labels l).card < s.bestS

/-! ## Concrete example volumes used by the witnesses -/

/-- A `4×4×2` mask with two disjoint 6-connected blobs: one of ten voxels
(the `2×2×2` corner block plus `(2,0,0)` and `(2,1,0)`) and one of three
voxels (`(3,3,0)`, `(3,3,1)`, `(2,3,1)`). -/
def blobMask : Vol3 ℕ :=
  ⟨4, 4, 2, fun p =>
    if (p.1 < 2 ∧ p.2.1 < 2) ∨ (p.1 = 2 ∧ p.2.1 < 2 ∧ p.2.2 = 0) then 1
    else if (p.1 = 3 ∧ p.2.1 = 3) ∨ (p.1 = 2 ∧ p.2.1 = 3 ∧ p.2.2 = 1) then 1
    else 0⟩

/-- A `1×1×3` mask with two single-voxel components at `z = 0` and `z = 2`
(a size tie). -/
def tieMask : Vol3 ℕ :=
  ⟨1, 1, 3, fun p => if p.2.2 = 0 ∨ p.2.2 = 2 then 1 else 0⟩

/-- A single-voxel mask (one `1` in a `1×1×1` volume). -/
def oneMask : Vol3 ℕ := ⟨1, 1, 1, fun _ => 1⟩

/-- A `1×1×5` mask with a two-voxel component at `z ∈ {0,1}` and a
single-voxel component at `z = 3`. -/
def twoBlobMask : Vol3 ℕ :=
  ⟨1, 1, 5, fun p => if p.2.2 = 0 ∨ p.2.2 = 1 ∨ p.2.2 = 3 then 1 else 0⟩

/-- A constant `1×1×1` rational volume with value `2`. -/
def constVol2 : Vol3 ℚ := ⟨1, 1, 1, fun _ => 2⟩

/-- A constant `1×1×2` probability volume with value exactly `1/2`. -/
def halfVol : Vol3 ℚ := ⟨1, 1, 2, fun _ => 1 / 2⟩

/-- A `1×1×1` input volume with value `5`, for the `run_bx` witnesses. -/
def exData : Vol3 ℚ := ⟨1, 1, 1, fun _ => 5⟩

/-- A well-shaped `(1,1,1,1,1)` adapter output with a single logit `10`. -/
def exOut : NdVol := ⟨[1, 1, 1, 1, 1], [10]⟩

/-- The mask `run_bx` computes from `exData` and `exOut` with the identity
activation. -/
def exMask : Vol3 ℕ := maskFrom (fun x => x) 1 1 1 exOut.data

/-- The masked volume `run_bx` computes from `exData` and `exOut`. -/
def exBrain : Vol3 ℚ :=
  ⟨exData.nx, exData.ny, exData.nz, fun p => if 0 < exMask.val p then exData.val p else 0⟩

/-- The spec's reconciliation condition on an adapter output shape: after
stripping leading singleton dimensions, the shape is exactly the expected
spatial shape `dims`. -/
def reconcilable (s : List ℕ) (dims : List ℕ) : Prop :=
  ∃ k, s = List.replicate k 1 ++ dims

/-! ## Basic lemmas -/

/-- The outer scan skips a background voxel without changing the state. -/
theorem lccStep_skip (m : Vol3 ℕ) (s : LccSt) (c : Coord) (h : m.val c = 0) :
    lccStep m s c = s := by
  simp [lccStep, h]

/-- C1: the claim states that an all-zero mask is mapped to an all-zero mask
of the same shape.  The code disagrees: when no foreground voxel exists, no
component is ever created, `best_label` keeps its sentinel value `0`, every
voxel's label is `0`, and the final reduction `l == best_label` therefore
maps every voxel to `1`.  Evaluating the embedded code on an arbitrary
all-zero mask, every output voxel is `1`, not `0`. -/
theorem C1_all_zero_mask_gives_all_ones (nx ny nz : ℕ) (p : Coord) :
    (largest_connected_component_3d ⟨nx, ny, nz, fun _ => 0⟩).val p = 1 := by
  have hz : ∀ (l : List Coord) (s : LccSt),
      l.foldl (lccStep ⟨nx, ny, nz, fun _ => 0⟩) s = s := by
    intro l
    induction l with
    | nil => intro s; rfl
    | cons c tl ih =>
      intro s
      rw [List.foldl_cons, lccStep_skip _ _ _ rfl]
      exact ih s
  have h : runLcc ⟨nx, ny, nz, fun _ => 0⟩ = lccInit := hz _ _
  simp [largest_connected_component_3d, h, lccInit]

/-- C7: `threshold_mask` produces only the values `0` and `1`, a voxel is `1`
iff its probability is at least the cutoff (the comparison is inclusive), and
in particular a voxel exactly at a cutoff of `1/2` maps to `1`. -/
theorem C7_threshold_inclusive (prob : Vol3 ℚ) (th : ℚ) (p : Coord) :
    ((threshold_mask prob th).val p = 0 ∨ (threshold_mask prob th).val p = 1) ∧
    ((threshold_mask prob th).val p = 1 ↔ th ≤ prob.val p) ∧
    (th = 1 / 2 → prob.val p = 1 / 2 → (threshold_mask prob th).val p = 1) := by
  unfold threshold_mask
  dsimp only
  refine ⟨?_, ?_, ?_⟩
  · split <;> simp
  · split <;> simp_all
  · intro h1 h2; simp [h1, h2]

/-- Witness for C7 at the boundary: a probability of exactly `1/2` with the
pipeline's cutoff `1/2` yields mask value `1`. -/
theorem C7_witness : (threshold_mask halfVol (1 / 2)).val (0, 0, 1) = 1 :=
  (C7_threshold_inclusive halfVol (1 / 2) (0, 0, 1)).2.2 rfl rfl

/-- Auxiliary characterisation of the running maximum fold of `run_bx`. -/
theorem maxVal_foldl_spec :
    ∀ (l : List ℚ) (b m : ℚ),
      l.foldl (fun a x => match a with | none => some x | some c => some (max c x))
        (some b) = some m →
      (m = b ∨ m ∈ l) ∧ b ≤ m ∧ ∀ x ∈ l, x ≤ m := by
  intro l
  induction l with
  | nil =>
    intro b m h
    simp only [List.foldl_nil, Option.some.injEq] at h
    subst h
    simp
  | cons a tl ih =>
    intro b m h
    rw [List.foldl_cons] at h
    obtain ⟨h1, h2, h3⟩ := ih (max b a) m h
    refine ⟨?_, le_trans (le_max_left _ _) h2, ?_⟩
    · rcases h1 with rfl | hm
      · rcases max_cases b a with ⟨he, _⟩ | ⟨he, _⟩
        · exact Or.inl he
        · exact Or.inr (by simp [he])
      · exact Or.inr (List.mem_cons_of_mem _ hm)
    · intro x hx
      rcases List.mem_cons.mp hx with rfl | hx
      · exact le_trans (le_max_right _ _) h2
      · exact h3 x hx

/-- The fold in `run_bx` really computes the maximum: if it returns `some m`
then `m` is an element of the list and an upper bound of it. -/
theorem maxVal_spec (l : List ℚ) (m : ℚ) (h : maxVal l = some m) :
    m ∈ l ∧ ∀ x ∈ l, x ≤ m := by
  cases l with
  | nil => simp [maxVal] at h
  | cons a tl =>
    have h' : tl.foldl
        (fun a x => match a with | none => some x | some c => some (max c x))
        (some a) = some m := by
      simpa [maxVal] using h
    obtain ⟨h1, h2, h3⟩ := maxVal_foldl_spec tl a m h'
    constructor
    · rcases h1 with rfl | hm
      · exact List.mem_cons_self _ _
      · exact List.mem_cons_of_mem _ hm
    · intro x hx
      rcases List.mem_cons.mp hx with rfl | hx
      · exact h2
      · exact h3 x hx

/-- C5: the normalizer computes the maximum voxel value; when it is strictly
positive every voxel of the result is the input voxel divided by the maximum,
and when it is non-positive (or the volume is empty, where the fold stays at
its `-∞` seed) the input is returned unchanged. -/
theorem C5_normalizer (v : Vol3 ℚ) :
    (∀ m, maxVal (vals v) = some m →
      m ∈ vals v ∧ (∀ x ∈ vals v, x ≤ m) ∧
      (0 < m → ∀ p, (normalizeVol v).val p = v.val p / m) ∧
      (m ≤ 0 → normalizeVol v = v)) ∧
    (maxVal (vals v) = none → normalizeVol v = v) := by
  constructor
  · intro m hm
    obtain ⟨h1, h2⟩ := maxVal_spec _ _ hm
    refine ⟨h1, h2, ?_, ?_⟩
    · intro hpos p
      unfold normalizeVol
      rw [hm]
      simp [hpos]
    · intro hnp
      unfold normalizeVol
      rw [hm]
      simp [not_lt.mpr hnp]
  · intro hn
    unfold normalizeVol
    rw [hn]

/-- Witness for C5: on the constant-`2` volume the maximum is `2` and the
normalized voxel is `2 / 2`. -/
theorem C5_witness :
    maxVal (vals constVol2) = some 2 ∧
    (normalizeVol constVol2).val (0, 0, 0) = 2 / 2 :=
  ⟨by decide, by
    have h := ((C5_normalizer constVol2).1 2 (by decide)).2.2.1 (by norm_num) (0, 0, 0)
    simpa [constVol2] using h⟩

/-- Positional account of the batch loop: the `k`-th file (0-based) of the
remaining list is always announced with index `i + k + 1`, whatever `proc`
does on the files before it, and a failing file's report immediately follows
its announcement in the event trace. -/
theorem processBatch_spec {P E : Type} (proc : P → Except E Unit) (n : ℕ) :
    ∀ (files : List P) (i k : ℕ) (hk : k < files.length),
      BatchEv.announce (i + k + 1) n (files.get ⟨k, hk⟩) ∈ processBatch proc n files i ∧
      ∀ e, proc (files.get ⟨k, hk⟩) = .error e →
        ∃ l1 l2, processBatch proc n files i =
          l1 ++ BatchEv.announce (i + k + 1) n (files.get ⟨k, hk⟩) ::
            BatchEv.reportErr e :: l2 := by
  intro files
  induction files with
  | nil => intro i k hk; simp at hk
  | cons f rest ih =>
    intro i k hk
    cases k with
    | zero =>
      refine ⟨by simp [processBatch], ?_⟩
      intro e he
      refine ⟨[], processBatch proc n rest (i + 1), ?_⟩
      have he' : proc f = Except.error e := he
      simp [processBatch, he']
    | succ k' =>
      have hk' : k' < rest.length := by simpa using hk
      obtain ⟨ha, hb⟩ := ih (i + 1) k' hk'
      have harith : i + 1 + k' + 1 = i + (k' + 1) + 1 := by omega
      rw [harith] at ha hb
      constructor
      · show _ ∈ _ ++ processBatch proc n rest (i + 1)
        exact List.mem_append_right _ ha
      · intro e he
        obtain ⟨l1, l2, hl⟩ := hb e he
        refine ⟨(BatchEv.announce (i + 1) n f ::
          (match proc f with | .ok _ => [] | .error e => [BatchEv.reportErr e])) ++ l1, l2, ?_⟩
        show (BatchEv.announce (i + 1) n f ::
          (match proc f with | .ok _ => [] | .error e => [BatchEv.reportErr e])) ++
            processBatch proc n rest (i + 1) = _
        rw [hl, List.append_assoc]
        rfl

/-- C8: in the batch loop of `main`, a failure of one input does not prevent
processing of subsequent inputs: every file is announced with its index and
path regardless of earlier failures, and when processing a file fails the
error report immediately follows that file's announcement in the trace. -/
theorem C8_batch_isolation {P E : Type} (proc : P → Except E Unit) (files : List P)
    (k : ℕ) (hk : k < files.length) :
    BatchEv.announce (k + 1) files.length (files.get ⟨k, hk⟩) ∈ runBatch proc files ∧
    ∀ e, proc (files.get ⟨k, hk⟩) = .error e →
      ∃ l1 l2, runBatch proc files =
        l1 ++ BatchEv.announce (k + 1) files.length (files.get ⟨k, hk⟩) ::
          BatchEv.reportErr e :: l2 := by
  have h := processBatch_spec proc files.length files 0 k hk
  simpa [runBatch] using h

/-- A processing oracle that fails exactly on file `5`, for the C8 witness. -/
def exProc : ℕ → Except ℕ Unit := fun p => if p = 5 then .error 7 else .ok ()

/-- Witness for C8: with a first file that fails, the second file is still
announced (the loop continued past the failure). -/
theorem C8_witness :
    BatchEv.announce 2 2 ([5, 6].get ⟨1, by decide⟩) ∈ runBatch exProc [5, 6] :=
  (C8_batch_isolation exProc [5, 6] 1 (by decide)).1

/-- C2 counterexample: a rank-3 adapter output of shape `(2,2,2)` against a
`1×1×1` input cannot be reconciled to the expected spatial shape, yet
`run_bx` does not return an `Err`: reading `logits_shape[3]` is an
out-of-bounds vector index, a panic. -/
theorem C2_counterexample :
    ¬ reconcilable [2, 2, 2] [1, 1, 1] ∧
    run_bx (fun x => x) ⟨1, 1, 1, fun _ => 1⟩
      (fun _ => .ok ⟨[2, 2, 2], List.replicate 8 1⟩) = RunRes.panicked := by
  constructor
  · rintro ⟨k, hk⟩
    cases k with
    | zero => simp at hk
    | succ k' => simp [List.replicate_succ] at hk
  · rfl

/-- C2 amended: whenever the adapter output has at least five dimensions and
its element count differs from the product of its dimensions at indices
`2, 3, 4`, the reshape fails and `run_bx` propagates the error as an `Err`
(aborting that input).  Adapter outputs of rank below five instead panic on
an out-of-bounds shape index, and a rank-5 output whose trailing dimensions
are a different shape with the same element count is silently reshaped. -/
theorem C2_reshape_error_propagates (sig : ℚ → ℚ) (data : Vol3 ℚ)
    (infer : Vol3 ℚ → Except Unit NdVol) (out : NdVol) (a b c : ℕ)
    (hout : infer (normalizeVol data) = .ok out)
    (ha : out.shape.get? 2 = some a) (hb : out.shape.get? 3 = some b)
    (hc : out.shape.get? 4 = some c)
    (hlen : out.data.length ≠ a * b * c) :
    run_bx sig data infer = RunRes.err := by
  unfold run_bx
  rw [hout]
  simp only [ha, hb, hc]
  simp [hlen]

/-- Witness for the amended C2: a `(1,2,3,4,5)`-shaped adapter output with an
empty data buffer makes `run_bx` return an `Err`. -/
theorem C2_witness :
    run_bx (fun x => x) ⟨1, 1, 1, fun _ => 1⟩
      (fun _ => .ok ⟨[1, 2, 3, 4, 5], []⟩) = RunRes.err :=
  C2_reshape_error_propagates (fun x => x) ⟨1, 1, 1, fun _ => 1⟩
    (fun _ => .ok ⟨[1, 2, 3, 4, 5], []⟩) ⟨[1, 2, 3, 4, 5], []⟩ 3 4 5
    rfl rfl rfl rfl (by decide)

/-- C6: when `run_bx` returns successfully, the returned mask is binary and
the returned masked volume agrees with the original (pre-normalization) input
wherever the mask is `1` and is `0` elsewhere, with the input's shape. -/
theorem C6_masked_volume (sig : ℚ → ℚ) (data : Vol3 ℚ)
    (infer : Vol3 ℚ → Except Unit NdVol) (mask : Vol3 ℕ) (brain : Vol3 ℚ)
    (h : run_bx sig data infer = RunRes.ok (mask, brain)) (p : Coord) :
    (mask.val p = 0 ∨ mask.val p = 1) ∧
    brain.val p = (if mask.val p = 1 then data.val p else 0) ∧
    brain.nx = data.nx ∧ brain.ny = data.ny ∧ brain.nz = data.nz := by
  unfold run_bx at h
  cases hi : infer (normalizeVol data) with
  | error e => rw [hi] at h; exact absurd h (by simp)
  | ok out =>
    rw [hi] at h
    cases h2 : out.shape.get? 2 with
    | none => simp only [h2] at h; exact RunRes.noConfusion h
    | some a =>
      cases h3 : out.shape.get? 3 with
      | none => simp only [h2, h3] at h; exact RunRes.noConfusion h
      | some b =>
        cases h4 : out.shape.get? 4 with
        | none => simp only [h2, h3, h4] at h; exact RunRes.noConfusion h
        | some c =>
          simp only [h2, h3, h4] at h
          by_cases hlen : out.data.length = a * b * c
          · rw [if_pos hlen] at h
            by_cases hsh : (maskFrom sig a b c out.data).nx = data.nx ∧
                (maskFrom sig a b c out.data).ny = data.ny ∧
                (maskFrom sig a b c out.data).nz = data.nz
            · rw [if_pos hsh] at h
              rw [RunRes.ok.injEq, Prod.mk.injEq] at h
              obtain ⟨hm, hbr⟩ := h
              subst hm
              subst hbr
              have hbin : (maskFrom sig a b c out.data).val p = 0 ∨
                  (maskFrom sig a b c out.data).val p = 1 := by
                show (if (runLcc _).labels p = (runLcc _).bestL then 1 else 0) = 0 ∨
                  (if (runLcc _).labels p = (runLcc _).bestL then 1 else 0) = 1
                split
                · exact Or.inr rfl
                · exact Or.inl rfl
              refine ⟨hbin, ?_, rfl, rfl, rfl⟩
              show (if 0 < (maskFrom sig a b c out.data).val p then data.val p else 0) =
                if (maskFrom sig a b c out.data).val p = 1 then data.val p else 0
              rcases hbin with h0 | h1
              · rw [h0]; simp
              · rw [h1]; simp
            · rw [if_neg hsh] at h; exact absurd h (by simp)
          · rw [if_neg hlen] at h; exact absurd h (by simp)

/-- Witness for C6 on a concrete run: the single mask voxel is binary and
the masked voxel obeys the mask-application equation. -/
theorem C6_witness :
    (exMask.val (0, 0, 0) = 0 ∨ exMask.val (0, 0, 0) = 1) ∧
    exBrain.val (0, 0, 0) = (if exMask.val (0, 0, 0) = 1 then exData.val (0, 0, 0) else 0) ∧
    exBrain.nx = exData.nx ∧ exBrain.ny = exData.ny ∧ exBrain.nz = exData.nz :=
  C6_masked_volume (fun x => x) exData (fun _ => .ok exOut) exMask exBrain rfl (0, 0, 0)

/-! ## Scan order, bounds and adjacency lemmas -/

theorem scanLt_irrefl (p : Coord) : ¬ scanLt p p := by
  unfold scanLt; omega

theorem scanLt_asymm {p q : Coord} (h : scanLt p q) : ¬ scanLt q p := by
  unfold scanLt at h ⊢; omega

theorem scanLt_trans {p q r : Coord} (h1 : scanLt p q) (h2 : scanLt q r) : scanLt p r := by
  unfold scanLt at h1 h2 ⊢; omega

theorem scanLt_total (p q : Coord) : p = q ∨ scanLt p q ∨ scanLt q p := by
  obtain ⟨a, b, c⟩ := p
  obtain ⟨d, e, f⟩ := q
  simp only [scanLt, Prod.mk.injEq]
  omega

theorem mem_scanCoords {α : Type} (m : Vol3 α) (p : Coord) :
    p ∈ scanCoords m ↔ inB m p := by
  obtain ⟨a, b, c⟩ := p
  simp only [scanCoords, inB, List.mem_flatMap, List.mem_map, List.mem_range]
  constructor
  · rintro ⟨x, hx, y, hy, z, hz, heq⟩
    obtain ⟨rfl, rfl, rfl⟩ := Prod.mk.injEq .. ▸ heq
    exact ⟨hx, hy, hz⟩
  · rintro ⟨h1, h2, h3⟩
    exact ⟨a, h1, b, h2, c, h3, rfl⟩

theorem scanCoords_pairwise {α : Type} (m : Vol3 α) : (scanCoords m).Pairwise scanLt := by
  unfold scanCoords
  rw [List.pairwise_flatMap]
  constructor
  · intro x _
    rw [List.pairwise_flatMap]
    constructor
    · intro y _
      rw [List.pairwise_map]
      exact (List.pairwise_lt_range m.nz).imp fun h => Or.inr ⟨rfl, Or.inr ⟨rfl, h⟩⟩
    · refine (List.pairwise_lt_range m.ny).imp ?_
      intro y1 y2 h q hq q' hq'
      simp only [List.mem_map, List.mem_range] at hq hq'
      obtain ⟨z, _, rfl⟩ := hq
      obtain ⟨z', _, rfl⟩ := hq'
      exact Or.inr ⟨rfl, Or.inl h⟩
  · refine (List.pairwise_lt_range m.nx).imp ?_
    intro x1 x2 h q hq q' hq'
    simp only [List.mem_flatMap, List.mem_map, List.mem_range] at hq hq'
    obtain ⟨y, _, z, _, rfl⟩ := hq
    obtain ⟨y', _, z', _, rfl⟩ := hq'
    exact Or.inl h

theorem mem_allCoords {α : Type} (m : Vol3 α) (p : Coord) :
    p ∈ allCoords m ↔ inB m p := by
  obtain ⟨a, b, c⟩ := p
  simp [allCoords, Finset.mem_product, inB]

theorem card_allCoords {α : Type} (m : Vol3 α) : (allCoords m).card = volSize m := by
  simp only [allCoords, Finset.card_product, Finset.card_range, volSize]
  ring

theorem mem_neighborsOf {α : Type} (m : Vol3 α) (c q : Coord) :
    q ∈ neighborsOf m c ↔ sixAdj c q ∧ inB m q := by
  obtain ⟨cx, cy, cz⟩ := c
  obtain ⟨qx, qy, qz⟩ := q
  rw [neighborsOf, List.mem_filterMap]
  constructor
  · rintro ⟨d, hd, hfd⟩
    simp only [offsets, List.mem_cons, List.not_mem_nil, or_false] at hd
    rcases hd with rfl | rfl | rfl | rfl | rfl | rfl <;>
      · simp only [] at hfd
        split_ifs at hfd with hc
        simp only [Option.some.injEq, Prod.mk.injEq] at hfd
        simp only [sixAdj, inB]
        omega
  · rintro ⟨hadj, hin⟩
    simp only [sixAdj] at hadj
    simp only [inB] at hin
    rcases hadj with ⟨h1, h2, h3 | h3⟩ | ⟨h1, h2, h3 | h3⟩ | ⟨h1, h2, h3 | h3⟩
    · exact ⟨(1, 0, 0), by simp [offsets], by
        rw [if_pos (by dsimp only; omega)]
        simp only [Option.some.injEq, Prod.mk.injEq]
        omega⟩
    · exact ⟨(-1, 0, 0), by simp [offsets], by
        rw [if_pos (by dsimp only; omega)]
        simp only [Option.some.injEq, Prod.mk.injEq]
        omega⟩
    · exact ⟨(0, 1, 0), by simp [offsets], by
        rw [if_pos (by dsimp only; omega)]
        simp only [Option.some.injEq, Prod.mk.injEq]
        omega⟩
    · exact ⟨(0, -1, 0), by simp [offsets], by
        rw [if_pos (by dsimp only; omega)]
        simp only [Option.some.injEq, Prod.mk.injEq]
        omega⟩
    · exact ⟨(0, 0, 1), by simp [offsets], by
        rw [if_pos (by dsimp only; omega)]
        simp only [Option.some.injEq, Prod.mk.injEq]
        omega⟩
    · exact ⟨(0, 0, -1), by simp [offsets], by
        rw [if_pos (by dsimp only; omega)]
        simp only [Option.some.injEq, Prod.mk.injEq]
        omega⟩

theorem neighborsOf_nodup {α : Type} (m : Vol3 α) (c : Coord) :
    (neighborsOf m c).Nodup := by
  unfold neighborsOf
  refine List.Nodup.filterMap ?_ (by decide)
  intro d1 d2 q hq1 hq2
  obtain ⟨ax, ay, az⟩ := d1
  obtain ⟨bx, by', bz⟩ := d2
  obtain ⟨qx, qy, qz⟩ := q
  simp only [Option.mem_def] at hq1 hq2
  split_ifs at hq1 hq2 with h1 h2
  simp only [Option.some.injEq, Prod.mk.injEq] at hq1 hq2
  simp only [Prod.mk.injEq]
  omega

/-! ## Reachability lemmas -/

theorem adjFg_symm {m : Vol3 ℕ} {p q : Coord} (h : adjFg m p q) : adjFg m q p := by
  obtain ⟨h1, h2, h3⟩ := h
  refine ⟨h2, h1, ?_⟩
  unfold sixAdj at h3 ⊢
  omega

theorem reach_symm {m : Vol3 ℕ} {p q : Coord} (h : reach m p q) : reach m q p :=
  Relation.ReflTransGen.symmetric (fun _ _ h => adjFg_symm h) h

theorem reach_trans {m : Vol3 ℕ} {p q r : Coord} (h1 : reach m p q) (h2 : reach m q r) :
    reach m p r := Relation.ReflTransGen.trans h1 h2

theorem reach_fg {m : Vol3 ℕ} {p q : Coord} (hp : fg m p) (h : reach m p q) : fg m q := by
  induction h with
  | refl => exact hp
  | tail _ hadj _ => exact hadj.2.1

theorem compSet_eq_of_reach {m : Vol3 ℕ} {p q : Coord} (h : reach m p q) :
    compSet m p = compSet m q := by
  ext x
  exact ⟨fun hx => reach_trans (reach_symm h) hx, fun hx => reach_trans h hx⟩

/-- On a labelling whose nonzero part is closed under foreground adjacency,
every voxel reachable from an unlabelled voxel is unlabelled. -/
theorem labels_stay_zero {m : Vol3 ℕ} {Lp : Coord → ℕ}
    (hclosed : ∀ q q', Lp q ≠ 0 → adjFg m q q' → Lp q' ≠ 0)
    {c0 q : Coord} (h0 : Lp c0 = 0) (h : reach m c0 q) : Lp q = 0 := by
  by_contra hq
  have hstep : ∀ {a b : Coord}, reach m a b → Lp a ≠ 0 → Lp b ≠ 0 := by
    intro a b hab
    induction hab with
    | refl => exact id
    | tail _ hadj ih => exact fun ha => hclosed _ _ (ih ha) hadj
  exact absurd h0 (hstep (reach_symm h) hq)

/-! ## The BFS inner loop -/

/-- Characterisation of one dequeue step's neighbour pass: relative to the
labelling `L` at the start of the pass, exactly the foreground unlabelled
neighbours get the label `l`, and they are the newly enqueued voxels, in
neighbour order. -/
theorem visitFold_spec (m : Vol3 ℕ) (l : ℕ) :
    ∀ (ns : List Coord) (L : Coord → ℕ) (acc : List Coord), ns.Nodup →
      (∀ q, (ns.foldl (visitStep m l) (L, acc)).1 q =
        if q ∈ ns ∧ 0 < m.val q ∧ L q = 0 then l else L q) ∧
      (ns.foldl (visitStep m l) (L, acc)).2 =
        acc ++ ns.filter (fun q => decide (0 < m.val q ∧ L q = 0)) := by
  intro ns
  induction ns with
  | nil =>
    intro L acc _
    constructor
    · intro q; simp
    · simp
  | cons a tl ih =>
    intro L acc hnd
    have hand : a ∉ tl := (List.nodup_cons.mp hnd).1
    have hndtl : tl.Nodup := (List.nodup_cons.mp hnd).2
    rw [List.foldl_cons]
    by_cases ha : 0 < m.val a ∧ L a = 0
    · rw [show visitStep m l (L, acc) a = (upd L a l, acc ++ [a]) by
        simp [visitStep, ha]]
      obtain ⟨ih1, ih2⟩ := ih (upd L a l) (acc ++ [a]) hndtl
      constructor
      · intro q
        rw [ih1 q]
        by_cases hqa : q = a
        · subst hqa
          rw [if_neg (by rintro ⟨hmem, -⟩; exact hand hmem),
            if_pos ⟨List.mem_cons_self _ _, ha⟩]
          simp [upd]
        · have hupd : upd L a l q = L q := by simp [upd, hqa]
          rw [hupd]
          by_cases hq : q ∈ tl ∧ 0 < m.val q ∧ L q = 0
          · rw [if_pos hq, if_pos ⟨List.mem_cons_of_mem _ hq.1, hq.2⟩]
          · rw [if_neg hq, if_neg ?_]
            rintro ⟨hmem, h2⟩
            rcases List.mem_cons.mp hmem with rfl | hmem
            · exact hqa rfl
            · exact hq ⟨hmem, h2⟩
      · rw [ih2, List.filter_cons_of_pos (by simpa using ha), List.append_assoc,
          List.singleton_append]
        congr 1
        congr 1
        apply List.filter_congr
        intro x hx
        have hxa : x ≠ a := fun h => hand (h ▸ hx)
        simp [upd, hxa]
    · rw [show visitStep m l (L, acc) a = (L, acc) by simp [visitStep, ha]]
      obtain ⟨ih1, ih2⟩ := ih L acc hndtl
      constructor
      · intro q
        rw [ih1 q]
        by_cases hq : q ∈ tl ∧ 0 < m.val q ∧ L q = 0
        · rw [if_pos hq, if_pos ⟨List.mem_cons_of_mem _ hq.1, hq.2⟩]
        · rw [if_neg hq, if_neg ?_]
          rintro ⟨hmem, h2⟩
          rcases List.mem_cons.mp hmem with rfl | hmem
          · exact ha h2
          · exact hq ⟨hmem, h2⟩
      · rw [ih2, List.filter_cons_of_neg (by simpa using ha)]

/-- Value view of `visitNbrs`. -/
theorem visitNbrs_val (m : Vol3 ℕ) (l : ℕ) (L : Coord → ℕ) (ns : List Coord)
    (h : ns.Nodup) (q : Coord) :
    (visitNbrs m l L ns).1 q =
      if q ∈ ns ∧ 0 < m.val q ∧ L q = 0 then l else L q :=
  (visitFold_spec m l ns L [] h).1 q

/-- Queue view of `visitNbrs`. -/
theorem visitNbrs_out (m : Vol3 ℕ) (l : ℕ) (L : Coord → ℕ) (ns : List Coord)
    (h : ns.Nodup) :
    (visitNbrs m l L ns).2 = ns.filter (fun q => decide (0 < m.val q ∧ L q = 0)) := by
  simpa using (visitFold_spec m l ns L [] h).2

/-- Membership in the newly enqueued list of a dequeue step. -/
theorem mem_visitOut (m : Vol3 ℕ) (l : ℕ) (L : Coord → ℕ) (ns : List Coord)
    (h : ns.Nodup) (q : Coord) :
    q ∈ (visitNbrs m l L ns).2 ↔ q ∈ ns ∧ 0 < m.val q ∧ L q = 0 := by
  rw [visitNbrs_out m l L ns h, List.mem_filter]
  simp

/-- One dequeue step of the BFS preserves the invariant and decreases the
measure (unlabelled foreground voxels plus queue length) by exactly one. -/
theorem BI_step (m : Vol3 ℕ) (c0 : Coord) (l : ℕ) (Lp : Coord → ℕ)
    (hfg : fg m c0) (hl : l ≠ 0)
    {L : Coord → ℕ} {c : Coord} {rest : List Coord} {sz : ℕ}
    (hbi : BI m c0 l Lp L (c :: rest) sz) :
    BI m c0 l Lp (visitNbrs m l L (neighborsOf m c)).1
      (rest ++ (visitNbrs m l L (neighborsOf m c)).2) (sz + 1) ∧
    (unlabSet m (visitNbrs m l L (neighborsOf m c)).1).card +
      (rest ++ (visitNbrs m l L (neighborsOf m c)).2).length + 1 =
    (unlabSet m L).card + (c :: rest).length := by
  obtain ⟨hold, hmem, hfront, hqlab, hnodup, hcount, hseed⟩ := hbi
  have hnodupns := neighborsOf_nodup m c
  have hval := visitNbrs_val m l L (neighborsOf m c) hnodupns
  have hout := mem_visitOut m l L (neighborsOf m c) hnodupns
  have hcfg : fg m c := reach_fg hfg (hmem c (hqlab c (List.mem_cons_self _ _)))
  have hLc : L c = l := hqlab c (List.mem_cons_self _ _)
  -- value of the new labelling, as a disjunction
  have hcases : ∀ q, ((visitNbrs m l L (neighborsOf m c)).1 q = l ∧
      (L q = l ∨ q ∈ (visitNbrs m l L (neighborsOf m c)).2)) ∨
      ((visitNbrs m l L (neighborsOf m c)).1 q = L q ∧
        q ∉ (visitNbrs m l L (neighborsOf m c)).2) := by
    intro q
    rw [hval q]
    by_cases hc : q ∈ neighborsOf m c ∧ 0 < m.val q ∧ L q = 0
    · rw [if_pos hc]
      exact Or.inl ⟨rfl, Or.inr ((hout q).mpr hc)⟩
    · rw [if_neg hc]
      exact Or.inr ⟨rfl, fun hmem' => hc ((hout q).mp hmem')⟩
  have houtfg : ∀ q ∈ (visitNbrs m l L (neighborsOf m c)).2, fg m q ∧ L q = 0 := by
    intro q hq
    obtain ⟨hns, hpos, hz⟩ := (hout q).mp hq
    exact ⟨⟨((mem_neighborsOf m c q).mp hns).2, Nat.pos_iff_ne_zero.mp hpos⟩, hz⟩
  have hnewlab : ∀ q ∈ (visitNbrs m l L (neighborsOf m c)).2,
      (visitNbrs m l L (neighborsOf m c)).1 q = l := by
    intro q hq
    rw [hval q, if_pos ((hout q).mp hq)]
  have holdlab : ∀ q, L q ≠ 0 → (visitNbrs m l L (neighborsOf m c)).1 q = L q := by
    intro q hq
    rw [hval q, if_neg (by rintro ⟨-, -, h0⟩; exact hq h0)]
  constructor
  · constructor
    -- old
    · intro q hq
      rcases hcases q with ⟨he, -⟩ | ⟨he, -⟩
      · exact absurd he hq
      · rw [he] at hq ⊢
        exact hold q hq
    -- mem
    · intro q hq
      rcases hcases q with ⟨-, hLq | hqnew⟩ | ⟨he, -⟩
      · exact hmem q hLq
      · obtain ⟨hns, -, -⟩ := (hout q).mp hqnew
        obtain ⟨hadj, -⟩ := (mem_neighborsOf m c q).mp hns
        exact (hmem c hLc).tail ⟨hcfg, (houtfg q hqnew).1, hadj⟩
      · rw [he] at hq
        exact hmem q hq
    -- front
    · intro q q' hq hnin hadj
      have hq'ne : (visitNbrs m l L (neighborsOf m c)).1 q' = l ∨
          (visitNbrs m l L (neighborsOf m c)).1 q' = L q' := by
        rcases hcases q' with ⟨he, -⟩ | ⟨he, -⟩
        · exact Or.inl he
        · exact Or.inr he
      by_cases hqc : q = c
      · subst hqc
        have hq'ns : q' ∈ neighborsOf m q :=
          (mem_neighborsOf m q q').mpr ⟨hadj.2.2, hadj.2.1.1⟩
        by_cases hz : L q' = 0
        · have : q' ∈ (visitNbrs m l L (neighborsOf m q)).2 :=
            (hout q').mpr ⟨hq'ns, Nat.pos_of_ne_zero hadj.2.1.2, hz⟩
          rw [hnewlab q' this]
          exact hl
        · rcases hq'ne with he | he <;> rw [he]
          · exact hl
          · exact hz
      · have hqL : L q = l := by
          rcases hcases q with ⟨-, hLq | hqnew⟩ | ⟨he, -⟩
          · exact hLq
          · exact absurd (List.mem_append_right rest hqnew) hnin
          · rw [he] at hq; exact hq
        have hqnotin : q ∉ c :: rest := by
          intro hmem'
          rcases List.mem_cons.mp hmem' with rfl | hmem'
          · exact hqc rfl
          · exact hnin (List.mem_append_left _ hmem')
        have := hfront q q' hqL hqnotin hadj
        rcases hq'ne with he | he <;> rw [he]
        · exact hl
        · exact this
    -- qlab
    · intro q hq
      rcases List.mem_append.mp hq with hq | hq
      · exact holdlab q (by rw [hqlab q (List.mem_cons_of_mem c hq)]; exact hl) ▸
          hqlab q (List.mem_cons_of_mem c hq)
      · exact hnewlab q hq
    -- nodupQ
    · refine List.Nodup.append ((List.nodup_cons.mp hnodup).2) ?_ ?_
      · rw [visitNbrs_out m l L (neighborsOf m c) hnodupns]
        exact hnodupns.filter _
      · intro a ha hanew
        have h1 : L a = l := hqlab a (List.mem_cons_of_mem c ha)
        have h2 : L a = 0 := (houtfg a hanew).2
        exact hl (h1 ▸ h2)
    -- count
    · have hsplit : labelSet m (visitNbrs m l L (neighborsOf m c)).1 l =
          labelSet m L l ∪ (visitNbrs m l L (neighborsOf m c)).2.toFinset := by
        ext x
        simp only [labelSet, Finset.mem_filter, Finset.mem_union, List.mem_toFinset]
        constructor
        · rintro ⟨hall, hx⟩
          rcases hcases x with ⟨he, hLx | hxnew⟩ | ⟨he, -⟩
          · exact Or.inl ⟨hall, hLx⟩
          · exact Or.inr hxnew
          · exact Or.inl ⟨hall, he ▸ hx⟩
        · rintro (⟨hall, hx⟩ | hxnew)
          · exact ⟨hall, holdlab x (by rw [hx]; exact hl) ▸ hx⟩
          · refine ⟨?_, hnewlab x hxnew⟩
            rw [mem_allCoords]
            exact (houtfg x hxnew).1.1
      have hdisj : Disjoint (labelSet m L l)
          (visitNbrs m l L (neighborsOf m c)).2.toFinset := by
        rw [Finset.disjoint_left]
        intro a ha hanew
        have h1 : L a = l := (Finset.mem_filter.mp ha).2
        have h2 : L a = 0 := (houtfg a (List.mem_toFinset.mp hanew)).2
        exact hl (h1 ▸ h2)
      have hnodupout : (visitNbrs m l L (neighborsOf m c)).2.Nodup := by
        rw [visitNbrs_out m l L (neighborsOf m c) hnodupns]
        exact hnodupns.filter _
      rw [hsplit, Finset.card_union_of_disjoint hdisj,
        List.toFinset_card_of_nodup hnodupout]
      simp only [List.length_append, List.length_cons] at hcount ⊢
      omega
    -- seed
    · rw [hval c0]
      split
      · rfl
      · exact hseed
  -- measure
  · have hsub : (visitNbrs m l L (neighborsOf m c)).2.toFinset ⊆ unlabSet m L := by
      intro x hx
      have hx' := List.mem_toFinset.mp hx
      obtain ⟨hfgx, hzx⟩ := houtfg x hx'
      rw [unlabSet, Finset.mem_filter, mem_allCoords]
      exact ⟨hfgx.1, Nat.pos_of_ne_zero hfgx.2, hzx⟩
    have hdiff : unlabSet m (visitNbrs m l L (neighborsOf m c)).1 =
        unlabSet m L \ (visitNbrs m l L (neighborsOf m c)).2.toFinset := by
      ext x
      simp only [unlabSet, Finset.mem_filter, Finset.mem_sdiff, List.mem_toFinset]
      constructor
      · rintro ⟨hall, hpos, hz⟩
        rcases hcases x with ⟨he, -⟩ | ⟨he, hnew⟩
        · exact absurd (he ▸ hz) hl
        · exact ⟨⟨hall, hpos, he ▸ hz⟩, hnew⟩
      · rintro ⟨⟨hall, hpos, hz⟩, hnew⟩
        refine ⟨hall, hpos, ?_⟩
        rw [hval x, if_neg ?_]
        · exact hz
        · rintro ⟨hns, hpos', hz'⟩
          exact hnew ((hout x).mpr ⟨hns, hpos', hz'⟩)
    have hnodupout : (visitNbrs m l L (neighborsOf m c)).2.Nodup := by
      rw [visitNbrs_out m l L (neighborsOf m c) hnodupns]
      exact hnodupns.filter _
    have hcard := Finset.card_le_card hsub
    rw [List.toFinset_card_of_nodup hnodupout] at hcard
    rw [hdiff, Finset.card_sdiff hsub, List.toFinset_card_of_nodup hnodupout]
    simp only [List.length_append, List.length_cons]
    omega


/-- With fuel at least the measure (unlabelled foreground voxels plus queue
length), the BFS loop runs to an empty queue while preserving the invariant:
this is the termination argument of the Rust `while let` loop. -/
theorem bfs_run (m : Vol3 ℕ) (c0 : Coord) (l : ℕ) (Lp : Coord → ℕ)
    (hfg : fg m c0) (hl : l ≠ 0) :
    ∀ (fuel : ℕ) (L : Coord → ℕ) (Q : List Coord) (sz : ℕ),
      BI m c0 l Lp L Q sz →
      (unlabSet m L).card + Q.length ≤ fuel →
      BI m c0 l Lp (bfsLoop m l fuel L Q sz).1 [] (bfsLoop m l fuel L Q sz).2 := by
  intro fuel
  induction fuel with
  | zero =>
    intro L Q sz hbi hle
    have hQ : Q = [] := List.eq_nil_of_length_eq_zero (by omega)
    subst hQ
    exact hbi
  | succ fuel ih =>
    intro L Q sz hbi hle
    cases Q with
    | nil => exact hbi
    | cons c rest =>
      obtain ⟨hbi2, hmeas⟩ := BI_step m c0 l Lp hfg hl hbi
      have hstep : bfsLoop m l (fuel + 1) L (c :: rest) sz =
          bfsLoop m l fuel (visitNbrs m l L (neighborsOf m c)).1
            (rest ++ (visitNbrs m l L (neighborsOf m c)).2) (sz + 1) := rfl
      rw [hstep]
      refine ih _ _ _ hbi2 ?_
      simp only [List.length_cons] at hmeas hle
      omega

/-- Full characterisation of one flood fill launched by the outer scan: with
`Lp` the labelling before the seed `c0` is processed (closed under foreground
adjacency, seed unlabelled, fresh label `l`), the loop labels exactly the
connected component of the seed with `l`, leaves everything else unchanged,
and returns the component's size. -/
theorem bfsLoop_spec (m : Vol3 ℕ) (c0 : Coord) (l : ℕ) (Lp : Coord → ℕ)
    (hfg : fg m c0) (hl : l ≠ 0) (hLp0 : Lp c0 = 0)
    (hclosed : ∀ q q', Lp q ≠ 0 → adjFg m q q' → Lp q' ≠ 0)
    (hfresh : ∀ q, Lp q ≠ l) :
    (∀ q, reach m c0 q → (bfsLoop m l (volSize m + 1) (upd Lp c0 l) [c0] 0).1 q = l) ∧
    (∀ q, ¬ reach m c0 q → (bfsLoop m l (volSize m + 1) (upd Lp c0 l) [c0] 0).1 q = Lp q) ∧
    (bfsLoop m l (volSize m + 1) (upd Lp c0 l) [c0] 0).2 = (compSet m c0).ncard := by
  have hstart : BI m c0 l Lp (upd Lp c0 l) [c0] 0 := by
    refine ⟨?_, ?_, ?_, ?_, ?_, ?_, ?_⟩
    · intro q hq
      unfold upd at hq ⊢
      split at hq
      · exact absurd rfl hq
      · rename_i hqc
        rw [if_neg hqc]
    · intro q hq
      unfold upd at hq
      split at hq
      · rename_i h
        subst h
        exact Relation.ReflTransGen.refl
      · exact absurd hq (hfresh q)
    · intro q q' hq hnin hadj
      unfold upd at hq
      split at hq
      · rename_i h
        subst h
        exact absurd (List.mem_cons_self _ _) hnin
      · exact absurd hq (hfresh q)
    · intro q hq
      rcases List.mem_cons.mp hq with rfl | hq
      · unfold upd; rw [if_pos rfl]
      · exact absurd hq (List.not_mem_nil q)
    · exact List.nodup_singleton c0
    · have : labelSet m (upd Lp c0 l) l = {c0} := by
        ext x
        simp only [labelSet, Finset.mem_filter, Finset.mem_singleton]
        constructor
        · rintro ⟨-, hx⟩
          unfold upd at hx
          split at hx
          · assumption
          · exact absurd hx (hfresh x)
        · intro hx
          subst hx
          exact ⟨(mem_allCoords m _).mpr hfg.1, by unfold upd; rw [if_pos rfl]⟩
      rw [this, Finset.card_singleton]
      simp
    · unfold upd; rw [if_pos rfl]
  have hfuel : (unlabSet m (upd Lp c0 l)).card + ([c0] : List Coord).length ≤
      volSize m + 1 := by
    have h1 : (unlabSet m (upd Lp c0 l)).card ≤ (allCoords m).card :=
      Finset.card_filter_le _ _
    rw [card_allCoords] at h1
    simpa using h1
  have hfin := bfs_run m c0 l Lp hfg hl (volSize m + 1) (upd Lp c0 l) [c0] 0 hstart hfuel
  obtain ⟨hold, hmem, hfront, -, -, hcount, hseed⟩ := hfin
  have hLps : ∀ q, reach m c0 q → Lp q = 0 := fun q hq => labels_stay_zero hclosed hLp0 hq
  have hcompl : ∀ q, reach m c0 q →
      (bfsLoop m l (volSize m + 1) (upd Lp c0 l) [c0] 0).1 q = l := by
    intro q hq
    induction hq with
    | refl => exact hseed
    | tail hab hadj ihq =>
      rename_i b q'
      have hne := hfront b q' ihq (List.not_mem_nil b) hadj
      by_contra hql
      rw [hold q' hql] at hne
      exact hne (hLps q' (hab.tail hadj))
  refine ⟨hcompl, ?_, ?_⟩
  · intro q hq
    by_cases hql : (bfsLoop m l (volSize m + 1) (upd Lp c0 l) [c0] 0).1 q = l
    · exact absurd (hmem q hql) hq
    · exact hold q hql
  · have hset : compSet m c0 =
        ↑(labelSet m (bfsLoop m l (volSize m + 1) (upd Lp c0 l) [c0] 0).1 l) := by
      ext x
      simp only [compSet, Set.mem_setOf_eq, Finset.coe_filter, labelSet, mem_allCoords]
      constructor
      · intro hx
        exact ⟨(reach_fg hfg hx).1, hcompl x hx⟩
      · rintro ⟨-, hx⟩
        exact hmem x hx
    rw [hset, Set.ncard_coe_Finset]
    simpa using hcount


/-! ## The outer scan -/

theorem OI_init (m : Vol3 ℕ) : OI m [] lccInit := by
  constructor
  · intro q hq; exact absurd rfl hq
  · intro q; exact le_refl 0
  · intro q q' hq; exact absurd rfl hq
  · intro p hp; exact absurd hp (List.not_mem_nil p)
  · intro l h1 h2; exact absurd h2 (by dsimp only [lccInit]; omega)
  · intro _; exact ⟨rfl, rfl, fun _ => rfl⟩
  · intro h; exact absurd h (by dsimp only [lccInit]; omega)
  · intro h; exact absurd h (by dsimp only [lccInit]; omega)
  · intro l h1 h2; exact absurd h2 (by dsimp only [lccInit]; omega)
  · intro l h1 h2; exact absurd h2 (by dsimp only [lccInit]; omega)

/-- A labelling class coincides with the connected component of any of its
voxels, as soon as the class is characterised by reachability. -/
theorem compSet_eq_labelSet (m : Vol3 ℕ) (L : Coord → ℕ) (p : Coord) (l0 : ℕ)
    (hfgp : fg m p) (hiff : ∀ x, L x = l0 ↔ reach m p x) :
    compSet m p = ↑(labelSet m L l0) := by
  ext x
  simp only [compSet, Set.mem_setOf_eq, labelSet, Finset.coe_filter, mem_allCoords]
  constructor
  · intro hx
    exact ⟨(reach_fg hfgp hx).1, (hiff x).mpr hx⟩
  · rintro ⟨-, hx⟩
    exact (hiff x).mp hx

/-- One step of the outer scan preserves the scan invariant. -/
theorem OI_step (m : Vol3 ℕ) {pr rest : List Coord} {c : Coord} {s : LccSt}
    (hscan : scanCoords m = pr ++ c :: rest)
    (hoi : OI m pr s) : OI m (pr ++ [c]) (lccStep m s c) := by
  obtain ⟨f1, f2, f3, f4, f5, f6, f7, f8, f9, f10⟩ := hoi
  have hpair := scanCoords_pairwise m
  rw [hscan, List.pairwise_append] at hpair
  obtain ⟨hpr, hcrest, hcross⟩ := hpair
  have hprc : ∀ a ∈ pr, scanLt a c := fun a ha => hcross a ha c (List.mem_cons_self _ _)
  have hcrest2 : ∀ b ∈ rest, scanLt c b := fun b hb => (List.pairwise_cons.mp hcrest).1 b hb
  have hmem3 : ∀ q : Coord, inB m q → q ∈ pr ∨ q = c ∨ q ∈ rest := by
    intro q hq
    have hq2 := (mem_scanCoords m q).mpr hq
    rw [hscan] at hq2
    rcases List.mem_append.mp hq2 with h | h
    · exact Or.inl h
    · rcases List.mem_cons.mp h with h | h
      · exact Or.inr (Or.inl h)
      · exact Or.inr (Or.inr h)
  have hbefore : ∀ q : Coord, inB m q → scanLt q c → q ∈ pr := by
    intro q hq hlt
    rcases hmem3 q hq with h | h | h
    · exact h
    · exact absurd hlt (h ▸ scanLt_irrefl c)
    · exact absurd hlt (scanLt_asymm (hcrest2 q h))
  have hafter : ∀ q : Coord, fg m q → s.labels q = 0 → q = c ∨ scanLt c q := by
    intro q hq hz
    rcases scanLt_total q c with h | h | h
    · exact Or.inl h
    · exact absurd hz (f4 q (hbefore q hq.1 h) hq.2)
    · exact Or.inr h
  by_cases hskip : m.val c = 0 ∨ 0 < s.labels c
  · unfold lccStep
    rw [if_pos hskip]
    refine ⟨f1, f2, f3, ?_, ?_, f6, f7, f8, f9, f10⟩
    · intro p hp hv
      rcases List.mem_append.mp hp with hp | hp
      · exact f4 p hp hv
      · rw [List.mem_singleton.mp hp]
        rcases hskip with h | h
        · rw [List.mem_singleton.mp hp] at hv
          exact absurd h hv
        · omega
    · intro l h1 h2
      obtain ⟨c1, hc1, hc1pr, hmin, hdom⟩ := f5 l h1 h2
      exact ⟨c1, hc1, List.mem_append_left _ hc1pr, hmin, hdom⟩
  · unfold lccStep
    rw [if_neg hskip]
    push_neg at hskip
    obtain ⟨hval, hpos⟩ := hskip
    have hlab : s.labels c = 0 := by omega
    have hfgc : fg m c :=
      ⟨(mem_scanCoords m c).mp (by
        rw [hscan]; exact List.mem_append_right _ (List.mem_cons_self _ _)), hval⟩
    have hl0 : s.cur + 1 ≠ 0 := Nat.succ_ne_zero _
    have hclosed : ∀ q q', s.labels q ≠ 0 → adjFg m q q' → s.labels q' ≠ 0 := by
      intro q q' hq hadj
      rw [(f3 q q' hq).mpr (Relation.ReflTransGen.single hadj)]
      exact hq
    have hfresh : ∀ q, s.labels q ≠ s.cur + 1 := fun q => by have := f2 q; omega
    obtain ⟨hfill, hkeep, hsz⟩ :=
      bfsLoop_spec m c (s.cur + 1) s.labels hfgc hl0 hlab hclosed hfresh
    set L2 := (bfsLoop m (s.cur + 1) (volSize m + 1) (upd s.labels c (s.cur + 1)) [c] 0).1
      with hL2def
    set sz2 := (bfsLoop m (s.cur + 1) (volSize m + 1) (upd s.labels c (s.cur + 1)) [c] 0).2
      with hsz2def
    have hzero_of_reach : ∀ q, reach m c q → s.labels q = 0 :=
      fun q hq => labels_stay_zero hclosed hlab hq
    have hLl : ∀ q, L2 q = s.cur + 1 ↔ reach m c q := by
      intro q
      constructor
      · intro hq
        by_contra hr
        rw [hkeep q hr] at hq
        exact hfresh q hq
      · exact hfill q
    have hstable : ∀ l0, l0 ≠ s.cur + 1 → l0 ≠ 0 → ∀ q, (L2 q = l0 ↔ s.labels q = l0) := by
      intro l0 h1 h2 q
      by_cases hr : reach m c q
      · have h0 := hzero_of_reach q hr
        rw [hfill q hr]
        omega
      · rw [hkeep q hr]
    have hstableSet : ∀ l0, l0 ≠ s.cur + 1 → l0 ≠ 0 →
        labelSet m L2 l0 = labelSet m s.labels l0 := by
      intro l0 h1 h2
      ext x
      simp only [labelSet, Finset.mem_filter]
      rw [hstable l0 h1 h2 x]
    have hbridge : compSet m c = ↑(labelSet m L2 (s.cur + 1)) :=
      compSet_eq_labelSet m L2 c (s.cur + 1) hfgc hLl
    have hsz_card : sz2 = (labelSet m L2 (s.cur + 1)).card := by
      rw [hsz, hbridge, Set.ncard_coe_Finset]
    have hcin : c ∈ labelSet m L2 (s.cur + 1) := by
      rw [labelSet, Finset.mem_filter, mem_allCoords]
      exact ⟨hfgc.1, (hLl c).mpr Relation.ReflTransGen.refl⟩
    have hszpos : 0 < sz2 := by
      rw [hsz_card]
      exact Finset.card_pos.mpr ⟨c, hcin⟩
    have hLfg : ∀ q, L2 q ≠ 0 → fg m q := by
      intro q hq
      by_cases hr : reach m c q
      · exact reach_fg hfgc hr
      · rw [hkeep q hr] at hq
        exact f1 q hq
    have hLle : ∀ q, L2 q ≤ s.cur + 1 := by
      intro q
      by_cases hr : reach m c q
      · rw [hfill q hr]
      · rw [hkeep q hr]
        have := f2 q
        omega
    have hcompl2 : ∀ q q', L2 q ≠ 0 → (L2 q' = L2 q ↔ reach m q q') := by
      intro q q' hq
      by_cases hr : reach m c q
      · rw [hfill q hr]
        constructor
        · intro h
          exact reach_trans (reach_symm hr) ((hLl q').mp h)
        · intro h
          exact (hLl q').mpr (reach_trans hr h)
      · rw [hkeep q hr] at hq ⊢
        by_cases hr' : reach m c q'
        · have h0' := hzero_of_reach q' hr'
          rw [hfill q' hr']
          constructor
          · intro h
            exact absurd h.symm (hfresh q)
          · intro h
            exact absurd ((f3 q q' hq).mpr h) (by rw [h0']; exact fun hx => hq hx.symm)
        · rw [hkeep q' hr']
          exact f3 q q' hq
    have hseedmin : ∀ q, L2 q = s.cur + 1 → q = c ∨ scanLt c q := by
      intro q hq
      have hr := (hLl q).mp hq
      exact hafter q (reach_fg hfgc hr) (hzero_of_reach q hr)
    refine ⟨hLfg, hLle, hcompl2, ?_, ?_, ?_, ?_, ?_, ?_, ?_⟩
    · -- procLab
      show ∀ p ∈ pr ++ [c], m.val p ≠ 0 → L2 p ≠ 0
      intro p hp hv
      rcases List.mem_append.mp hp with hp | hp
      · have := f4 p hp hv
        by_cases hr : reach m c p
        · rw [(hLl p).mpr hr]
          exact hl0
        · rw [hkeep p hr]
          exact this
      · rw [List.mem_singleton.mp hp]
        rw [(hLl c).mpr Relation.ReflTransGen.refl]
        exact hl0
    · -- seeds
      show ∀ l0, 1 ≤ l0 → l0 ≤ s.cur + 1 →
        ∃ c1, L2 c1 = l0 ∧ c1 ∈ pr ++ [c] ∧
          (∀ q, L2 q = l0 → q = c1 ∨ scanLt c1 q) ∧
          (∀ q l2, L2 q = l2 → l0 < l2 → scanLt c1 q)
      intro l0 h1 h2
      by_cases hl0c : l0 = s.cur + 1
      · subst hl0c
        refine ⟨c, (hLl c).mpr Relation.ReflTransGen.refl,
          List.mem_append_right _ (List.mem_cons_self _ _), hseedmin, ?_⟩
        intro q l2 hq hlt
        have := hLle q
        omega
      · have h2' : l0 ≤ s.cur := by omega
        obtain ⟨c1, hc1, hc1pr, hmin, hdom⟩ := f5 l0 h1 h2'
        have hc1' : L2 c1 = l0 := (hstable l0 hl0c (by omega) c1).mpr hc1
        refine ⟨c1, hc1', List.mem_append_left _ hc1pr, ?_, ?_⟩
        · intro q hq
          exact hmin q ((hstable l0 hl0c (by omega) q).mp hq)
        · intro q l2 hq hlt
          by_cases hl2c : l2 = s.cur + 1
          · subst hl2c
            have hr := (hLl q).mp hq
            have hc1c : scanLt c1 c := hprc c1 hc1pr
            rcases hafter q (reach_fg hfgc hr) (hzero_of_reach q hr) with h | h
            · rw [h]; exact hc1c
            · exact scanLt_trans hc1c h
          · have hl2nz : l2 ≠ 0 := by omega
            exact hdom q l2 ((hstable l2 hl2c hl2nz q).mp hq) hlt
    · -- cur0
      show s.cur + 1 = 0 → _
      intro h
      exact absurd h (Nat.succ_ne_zero _)
    · -- bestL_pos
      show 1 ≤ s.cur + 1 → 1 ≤ (if sz2 > s.bestS then s.cur + 1 else s.bestL) ∧
        (if sz2 > s.bestS then s.cur + 1 else s.bestL) ≤ s.cur + 1
      intro _
      by_cases himp : sz2 > s.bestS
      · simp only [if_pos himp]
        omega
      · simp only [if_neg himp]
        have hcur1 : 1 ≤ s.cur := by
          by_contra hcc
          have h0 : s.cur = 0 := by omega
          obtain ⟨-, hbs0, -⟩ := f6 h0
          omega
        have := f7 hcur1
        omega
    · -- bestS_eq
      show 1 ≤ s.cur + 1 → (if sz2 > s.bestS then sz2 else s.bestS) =
        (labelSet m L2 (if sz2 > s.bestS then s.cur + 1 else s.bestL)).card
      intro _
      by_cases himp : sz2 > s.bestS
      · simp only [if_pos himp]
        exact hsz_card
      · simp only [if_neg himp]
        have hcur1 : 1 ≤ s.cur := by
          by_contra hcc
          have h0 : s.cur = 0 := by omega
          obtain ⟨-, hbs0, -⟩ := f6 h0
          omega
        obtain ⟨hb1, hb2⟩ := f7 hcur1
        rw [hstableSet s.bestL (by omega) (by omega)]
        exact f8 hcur1
    · -- bestS_max
      show ∀ l0, 1 ≤ l0 → l0 ≤ s.cur + 1 →
        (labelSet m L2 l0).card ≤ (if sz2 > s.bestS then sz2 else s.bestS)
      intro l0 h1 h2
      by_cases hl0c : l0 = s.cur + 1
      · subst hl0c
        by_cases himp : sz2 > s.bestS
        · simp only [if_pos himp]
          rw [← hsz_card]
        · simp only [if_neg himp]
          rw [← hsz_card]
          omega
      · have h2' : l0 ≤ s.cur := by omega
        have hstep := f9 l0 h1 h2'
        rw [hstableSet l0 hl0c (by omega)]
        by_cases himp : sz2 > s.bestS
        · simp only [if_pos himp]
          omega
        · simp only [if_neg himp]
          exact hstep
    · -- bestS_strict
      show ∀ l0, 1 ≤ l0 → l0 < (if sz2 > s.bestS then s.cur + 1 else s.bestL) →
        (labelSet m L2 l0).card < (if sz2 > s.bestS then sz2 else s.bestS)
      intro l0 h1 h2
      by_cases himp : sz2 > s.bestS
      · simp only [if_pos himp] at h2 ⊢
        have h2' : l0 ≤ s.cur := by omega
        have hstep := f9 l0 h1 h2'
        rw [hstableSet l0 (by omega) (by omega)]
        omega
      · simp only [if_neg himp] at h2 ⊢
        have hcur1 : 1 ≤ s.cur := by
          by_contra hcc
          have h0 : s.cur = 0 := by omega
          obtain ⟨hbl0, -, -⟩ := f6 h0
          omega
        obtain ⟨hb1, hb2⟩ := f7 hcur1
        rw [hstableSet l0 (by omega) (by omega)]
        exact f10 l0 h1 h2


/-- The scan invariant propagates along any suffix of the scan. -/
theorem OI_fold (m : Vol3 ℕ) :
    ∀ (rest pre : List Coord) (s : LccSt),
      scanCoords m = pre ++ rest → OI m pre s →
      OI m (pre ++ rest) (rest.foldl (lccStep m) s) := by
  intro rest
  induction rest with
  | nil =>
    intro pre s h hoi
    simpa using hoi
  | cons c rest ih =>
    intro pre s h hoi
    have hstep := OI_step m h hoi
    have h2 : scanCoords m = (pre ++ [c]) ++ rest := by rw [h]; simp
    have hrec := ih (pre ++ [c]) (lccStep m s c) h2 hstep
    rw [List.foldl_cons]
    simpa using hrec

/-- The scan invariant holds of the final labeler state. -/
theorem OI_runLcc (m : Vol3 ℕ) : OI m (scanCoords m) (runLcc m) := by
  have h := OI_fold m (scanCoords m) [] lccInit (by simp) (OI_init m)
  simpa [runLcc] using h

/-- Master characterisation of `largest_connected_component_3d` on a mask
with at least one foreground voxel: there is a voxel `p₀` (the seed of the
winning component, scan-minimal in it) whose component is of maximal size
among all components, the output is exactly the indicator function of that
component, and the winning component's seed scan-precedes every voxel of any
other component of equal (hence maximal) size. -/
theorem lcc_spec_master (m : Vol3 ℕ) (hne : ∃ p, fg m p) :
    ∃ p₀, fg m p₀ ∧ p₀ ∈ compSet m p₀ ∧
      (∀ q, fg m q → (compSet m q).ncard ≤ (compSet m p₀).ncard) ∧
      (∀ q, ((largest_connected_component_3d m).val q = 1 ↔ q ∈ compSet m p₀)) ∧
      (∀ q, (largest_connected_component_3d m).val q = 0 ∨
        (largest_connected_component_3d m).val q = 1) ∧
      (∀ q, q ∉ compSet m p₀ → (largest_connected_component_3d m).val q = 0) ∧
      (∀ q, fg m q → (compSet m q).ncard = (compSet m p₀).ncard →
        compSet m q ≠ compSet m p₀ → ∀ b ∈ compSet m q, scanLt p₀ b) := by
  obtain ⟨w, hw⟩ := hne
  obtain ⟨f1, f2, f3, f4, f5, f6, f7, f8, f9, f10⟩ := OI_runLcc m
  have hwlab : (runLcc m).labels w ≠ 0 := f4 w ((mem_scanCoords m w).mpr hw.1) hw.2
  have hcur1 : 1 ≤ (runLcc m).cur := by
    have := f2 w
    omega
  obtain ⟨hb1, hb2⟩ := f7 hcur1
  obtain ⟨p₀, hp0lab, hp0pr, hp0min, hp0dom⟩ := f5 (runLcc m).bestL hb1 hb2
  have hp0nz : (runLcc m).labels p₀ ≠ 0 := by rw [hp0lab]; omega
  have hp0fg : fg m p₀ := f1 p₀ hp0nz
  have hbridge : ∀ q, (runLcc m).labels q ≠ 0 →
      compSet m q = ↑(labelSet m (runLcc m).labels ((runLcc m).labels q)) :=
    fun q hq => compSet_eq_labelSet m (runLcc m).labels q ((runLcc m).labels q)
      (f1 q hq) (fun x => f3 q x hq)
  have hncard : ∀ q, (runLcc m).labels q ≠ 0 →
      (compSet m q).ncard = (labelSet m (runLcc m).labels ((runLcc m).labels q)).card := by
    intro q hq
    rw [hbridge q hq, Set.ncard_coe_Finset]
  have hout : ∀ q, (largest_connected_component_3d m).val q =
      (if (runLcc m).labels q = (runLcc m).bestL then 1 else 0) := fun q => rfl
  have hiff : ∀ q, (largest_connected_component_3d m).val q = 1 ↔ q ∈ compSet m p₀ := by
    intro q
    rw [hout q]
    constructor
    · intro h
      split at h
      · rename_i heq
        exact (f3 p₀ q hp0nz).mp (by rw [heq, hp0lab])
      · exact absurd h (by omega)
    · intro h
      have heq : (runLcc m).labels q = (runLcc m).bestL := by
        rw [← hp0lab]
        exact (f3 p₀ q hp0nz).mpr h
      rw [if_pos heq]
  have h01 : ∀ q, (largest_connected_component_3d m).val q = 0 ∨
      (largest_connected_component_3d m).val q = 1 := by
    intro q
    rw [hout q]
    split
    · exact Or.inr rfl
    · exact Or.inl rfl
  have hzero : ∀ q, q ∉ compSet m p₀ → (largest_connected_component_3d m).val q = 0 := by
    intro q hq
    rcases h01 q with h | h
    · exact h
    · exact absurd ((hiff q).mp h) hq
  have hlargest : ∀ q, fg m q → (compSet m q).ncard ≤ (compSet m p₀).ncard := by
    intro q hq
    have hqlab : (runLcc m).labels q ≠ 0 := f4 q ((mem_scanCoords m q).mpr hq.1) hq.2
    rw [hncard q hqlab, hncard p₀ hp0nz, hp0lab, ← f8 hcur1]
    exact f9 ((runLcc m).labels q) (by omega) (f2 q)
  refine ⟨p₀, hp0fg, Relation.ReflTransGen.refl, hlargest, hiff, h01, hzero, ?_⟩
  intro q hq hcard hne2 b hb
  have hqlab : (runLcc m).labels q ≠ 0 := f4 q ((mem_scanCoords m q).mpr hq.1) hq.2
  have hql_ne : (runLcc m).labels q ≠ (runLcc m).bestL := by
    intro h
    apply hne2
    have hr : reach m p₀ q := (f3 p₀ q hp0nz).mp (by rw [h, hp0lab])
    exact (compSet_eq_of_reach hr).symm
  have hqgt : (runLcc m).bestL < (runLcc m).labels q := by
    by_contra hlt
    have hlt' : (runLcc m).labels q < (runLcc m).bestL := by omega
    have hstrict := f10 ((runLcc m).labels q) (by omega) hlt'
    rw [hncard q hqlab, hncard p₀ hp0nz, hp0lab, ← f8 hcur1] at hcard
    omega
  have hblab : (runLcc m).labels b = (runLcc m).labels q := (f3 q b hqlab).mpr hb
  exact hp0dom b ((runLcc m).labels b) rfl (by omega)


/-- C3: for every mask with at least one foreground voxel, the output of
`largest_connected_component_3d` is `1` exactly on the voxels of a largest
(by voxel count) maximal 6-connected foreground component and `0` on every
other voxel. -/
theorem C3_keeps_largest_component (m : Vol3 ℕ) (hne : ∃ p, fg m p) :
    ∃ p₀, fg m p₀ ∧
      (∀ q, fg m q → (compSet m q).ncard ≤ (compSet m p₀).ncard) ∧
      (∀ q, ((largest_connected_component_3d m).val q = 1 ↔ q ∈ compSet m p₀)) ∧
      (∀ q, q ∉ compSet m p₀ → (largest_connected_component_3d m).val q = 0) := by
  obtain ⟨p₀, h1, -, h3, h4, -, h6, -⟩ := lcc_spec_master m hne
  exact ⟨p₀, h1, h3, h4, h6⟩

/-- Witness for C3 on the spec's example shape: a mask with a ten-voxel blob
and a disjoint three-voxel blob. -/
theorem C3_witness :
    fg blobMask (0, 0, 0) ∧
    (∃ p₀, fg blobMask p₀ ∧
      (∀ q, fg blobMask q → (compSet blobMask q).ncard ≤ (compSet blobMask p₀).ncard) ∧
      (∀ q, ((largest_connected_component_3d blobMask).val q = 1 ↔
        q ∈ compSet blobMask p₀)) ∧
      (∀ q, q ∉ compSet blobMask p₀ →
        (largest_connected_component_3d blobMask).val q = 0)) :=
  ⟨by decide, C3_keeps_largest_component blobMask ⟨(0, 0, 0), by decide⟩⟩

/-- C4: when components tie in size, the kept component is the one
discovered first in lexicographic scan order: its seed `p₀` belongs to it and
scan-precedes every voxel of every other component of equal size. -/
theorem C4_tie_keeps_first_component (m : Vol3 ℕ) (hne : ∃ p, fg m p) :
    ∃ p₀, fg m p₀ ∧ p₀ ∈ compSet m p₀ ∧
      (∀ q, ((largest_connected_component_3d m).val q = 1 ↔ q ∈ compSet m p₀)) ∧
      (∀ q, fg m q → (compSet m q).ncard ≤ (compSet m p₀).ncard) ∧
      (∀ q, fg m q → (compSet m q).ncard = (compSet m p₀).ncard →
        compSet m q ≠ compSet m p₀ → ∀ b ∈ compSet m q, scanLt p₀ b) := by
  obtain ⟨p₀, h1, h2, h3, h4, -, -, h7⟩ := lcc_spec_master m hne
  exact ⟨p₀, h1, h2, h4, h3, h7⟩

/-- Witness for C4 on a mask with two tied single-voxel components. -/
theorem C4_witness :
    fg tieMask (0, 0, 0) ∧
    (∃ p₀, fg tieMask p₀ ∧ p₀ ∈ compSet tieMask p₀ ∧
      (∀ q, ((largest_connected_component_3d tieMask).val q = 1 ↔
        q ∈ compSet tieMask p₀)) ∧
      (∀ q, fg tieMask q → (compSet tieMask q).ncard ≤ (compSet tieMask p₀).ncard) ∧
      (∀ q, fg tieMask q → (compSet tieMask q).ncard = (compSet tieMask p₀).ncard →
        compSet tieMask q ≠ compSet tieMask p₀ →
        ∀ b ∈ compSet tieMask q, scanLt p₀ b)) :=
  ⟨by decide, C4_tie_keeps_first_component tieMask ⟨(0, 0, 0), by decide⟩⟩

/-- C9: on a binary mask whose foreground voxels form exactly one non-empty
6-connected component, `largest_connected_component_3d` returns a mask equal
to its input (same shape, same value at every in-bounds voxel). -/
theorem C9_idempotent_on_reduced_mask (m : Vol3 ℕ)
    (hbin : ∀ p, inB m p → m.val p = 0 ∨ m.val p = 1)
    (hne : ∃ p, fg m p)
    (hsingle : ∀ p q, fg m p → fg m q → reach m p q) :
    (largest_connected_component_3d m).nx = m.nx ∧
    (largest_connected_component_3d m).ny = m.ny ∧
    (largest_connected_component_3d m).nz = m.nz ∧
    ∀ p, inB m p → (largest_connected_component_3d m).val p = m.val p := by
  obtain ⟨p₀, hp0, -, -, hiff, -, hzero, -⟩ := lcc_spec_master m hne
  refine ⟨rfl, rfl, rfl, ?_⟩
  intro p hp
  by_cases hfp : m.val p = 0
  · rw [hfp]
    apply hzero
    intro hr
    exact (reach_fg hp0 hr).2 hfp
  · have hfgp : fg m p := ⟨hp, hfp⟩
    rw [(hiff p).mpr (hsingle p₀ p hp0 hfgp)]
    rcases hbin p hp with h | h
    · exact absurd h hfp
    · rw [h]

/-- Witness for C9 on the single-voxel mask of the spec's test list. -/
theorem C9_witness :
    (largest_connected_component_3d oneMask).nx = oneMask.nx ∧
    (largest_connected_component_3d oneMask).ny = oneMask.ny ∧
    (largest_connected_component_3d oneMask).nz = oneMask.nz ∧
    ∀ p, inB oneMask p →
      (largest_connected_component_3d oneMask).val p = oneMask.val p :=
  C9_idempotent_on_reduced_mask oneMask
    (fun p _ => Or.inr rfl)
    ⟨(0, 0, 0), by decide⟩
    (by
      intro p q hp hq
      have hp2 : p = (0, 0, 0) := by
        obtain ⟨a, b, c⟩ := p
        obtain ⟨⟨h1, h2, h3⟩, -⟩ := hp
        simp only [oneMask] at h1 h2 h3
        simp only [Prod.mk.injEq]
        omega
      have hq2 : q = (0, 0, 0) := by
        obtain ⟨a, b, c⟩ := q
        obtain ⟨⟨h1, h2, h3⟩, -⟩ := hq
        simp only [oneMask] at h1 h2 h3
        simp only [Prod.mk.injEq]
        omega
      rw [hp2, hq2]
      exact Relation.ReflTransGen.refl)

/-- C10: on a mask with at least one foreground voxel, the reduction never
invents foreground: every voxel that is `1` in the output is nonzero in the
input mask. -/
theorem C10_output_subset_input (m : Vol3 ℕ) (hne : ∃ p, fg m p) (q : Coord)
    (h1 : (largest_connected_component_3d m).val q = 1) : m.val q ≠ 0 := by
  obtain ⟨p₀, hp0, -, -, hiff, -, -, -⟩ := lcc_spec_master m hne
  exact (reach_fg hp0 ((hiff q).mp h1)).2

/-- Witness for C10 on the `1×1×5` two-blob mask: voxel `(0,0,0)` is kept by
the reduction and is indeed foreground in the input. -/
theorem C10_witness : twoBlobMask.val (0, 0, 0) ≠ 0 :=
  C10_output_subset_input twoBlobMask ⟨(0, 0, 0), by decide⟩ (0, 0, 0) (by decide)

end Rustbx
